import Mathlib

/-!
Verification of `pre_commit_rust.py`, a pre-commit dispatcher that maps
changed files to their enclosing Cargo root directories and runs one
external command per directory.

A filesystem path is embedded as its list of parts (`Path.parts` in
Python), e.g. `/proj/sub/lib.rs` is `["/", "proj", "sub", "lib.rs"]`.
`path.is_relative_to(d)` is parts-prefix testing, `path.parent` drops the
last part, `path.name` is the last part, and `path.suffix` follows
CPython's `PurePath.suffix` (text of the final component from its last
dot, when that dot is neither first nor last character).

The filesystem scan `glob.glob("**/Cargo.toml")` is modelled by passing
the working tree as the list of its file paths; subprocess execution is
modelled by a function from directory to integer exit code.
-/

/-- A path, as its tuple of parts. -/
abbrev FsPath := List String

/-- `PurePath.name`: the final component (empty for the empty tuple). -/
def pathName (p : FsPath) : String := p.getLast?.getD ""

/-- Indices of the character `'.'` in a list of characters. -/
def dotIndices (l : List Char) : List Nat :=
  (List.range l.length).filter (fun i => l.getD i ' ' = '.')

/-- CPython `PurePath.suffix`: `name[i:]` for `i` the index of the last
dot of `name`, provided `0 < i < len(name) - 1`; otherwise `""`. -/
def pySuffix (name : String) : String :=
  match (dotIndices name.data).getLast? with
  | some i =>
      if 0 < i ∧ i < name.data.length - 1 then String.mk (name.data.drop i)
      else ""
  | none => ""

/-- `is_rust_file`: suffix is `.rs`, or the name is one of the two
manifest filenames `Cargo.toml`, `Cargo.lock`. -/
def is_rust_file (path : FsPath) : Bool :=
  if pySuffix (pathName path) = ".rs" then true
  else if pathName path = "Cargo.toml" ∨ pathName path = "Cargo.lock" then true
  else false

/-- `path_len`: `len(path.parts)`. -/
def path_len (path : FsPath) : Nat := path.length

/-- `path.is_relative_to(d)`: the parts of `d` are a prefix of the parts
of `path`. -/
def is_relative_to (path d : FsPath) : Bool := d.isPrefixOf path

/-- `path.parent`: the path with the final component removed. -/
def parent (path : FsPath) : FsPath := path.dropLast

/-- The loop of Python `max(xs, key=path_len)` over the tail: keep the
current maximum, replacing it only when a strictly greater key appears
(so the first maximal element wins). -/
def maxFold (best : FsPath) (bestLen : Nat) : List FsPath → FsPath
  | [] => best
  | y :: ys =>
      if bestLen < path_len y then maxFold y (path_len y) ys
      else maxFold best bestLen ys

/-- Python `max(l, key=path_len)`, returning `none` on the empty list
(where Python raises `ValueError`; `get_run_dirs` never reaches that
case because it tests `if not roots` first). -/
def pyMax (l : List FsPath) : Option FsPath :=
  match l with
  | [] => none
  | x :: xs => some (maxFold x (path_len x) xs)

/-- `run_dirs.add(root)` on a set represented as a duplicate-free list. -/
def setInsert (s : List FsPath) (x : FsPath) : List FsPath :=
  if s.contains x then s else s ++ [x]

/-- Line 71 and 74 of the source for one changed file: the root
directories that are ancestors of `path`, then the deepest of them. -/
def selectRoot (root_dirs : List FsPath) (path : FsPath) : Option FsPath :=
  pyMax (root_dirs.filter (fun d => is_relative_to path d))

/-- The loop of `get_run_dirs`: skip non-Rust files, skip files under no
root, otherwise insert the deepest ancestor root into the set. -/
def get_run_dirs_loop (root_dirs : List FsPath) :
    List FsPath → List FsPath → List FsPath
  | [], acc => acc
  | path :: rest, acc =>
      if is_rust_file path then
        match selectRoot root_dirs path with
        | some root => get_run_dirs_loop root_dirs rest (setInsert acc root)
        | none => get_run_dirs_loop root_dirs rest acc
      else get_run_dirs_loop root_dirs rest acc

/-- `get_run_dirs` with the root-directory set passed explicitly (the
source computes it by a filesystem scan, modelled separately below). -/
def get_run_dirs_from (root_dirs changed_files : List FsPath) : List FsPath :=
  get_run_dirs_loop root_dirs changed_files []

/-- `find_cargo_root_dirs`: the parents of the files of the working tree
named `Cargo.toml` (the glob `**/Cargo.toml` matched against the tree's
file list). -/
def find_cargo_root_dirs (tree : List FsPath) : List FsPath :=
  (tree.filter (fun p => pathName p = "Cargo.toml")).map parent

/-- `get_run_dirs` proper, over a working tree. -/
def get_run_dirs (tree changed_files : List FsPath) : List FsPath :=
  get_run_dirs_from (find_cargo_root_dirs tree) changed_files

/-- `run_fmt`'s command string. `if args.config:` is Python truthiness:
`none` and the empty string both skip the flag. -/
def run_fmt_cmd (config : Option String) : String :=
  match config with
  | some c => if c = "" then "cargo fmt --" else "cargo fmt -- --config " ++ c
  | none => "cargo fmt --"

/-- `run_check`'s command string. `if args.features is not None:` keeps
the flag even for the empty string; `--all-features` is appended when
the boolean flag is set. -/
def run_check_cmd (features : Option String) (all_features : Bool) : String :=
  let cmd := "cargo check"
  let cmd := match features with
    | some f => cmd ++ " --features=" ++ f
    | none => cmd
  if all_features then cmd ++ " --all-features" else cmd

/-- `run_clippy`'s command string. -/
def run_clippy_cmd : String := "cargo clippy -- -D warnings"

/-- `int(failed > 0)` for `failed` the sum of the recorded exit codes. -/
def aggregate_exit (codes : List Int) : Int :=
  if codes.sum > 0 then 1 else 0

/-- Lines 50-54 of `main` after `get_run_dirs`: given the per-directory
exit codes of the external command, return the overall exit status and
the list of directories in which the command was invoked. -/
def pymain_run (exitCode : FsPath → Int) (run_dirs : List FsPath) :
    Int × List FsPath :=
  if run_dirs = [] then (0, [])
  else (aggregate_exit (run_dirs.map exitCode), run_dirs)

/-! The source decorates `path_len` with `functools.lru_cache`. To state
that the memoization does not change results, we re-run the resolver with
the cache made explicit: an association list from path to stored length,
threaded through every `path_len` call site. -/

/-- The memo table of `lru_cache` on `path_len`. -/
abbrev LenCache := List (FsPath × Nat)

/-- `path_len` through the memo table: return the stored value on a hit,
otherwise compute `len(path.parts)` and store it. -/
def path_len_cached (cache : LenCache) (p : FsPath) : Nat × LenCache :=
  match cache.lookup p with
  | some n => (n, cache)
  | none => (p.length, (p, p.length) :: cache)

/-- `maxFold` with the key function reading through the memo table. -/
def maxFoldC (best : FsPath) (bestLen : Nat) (cache : LenCache) :
    List FsPath → FsPath × LenCache
  | [] => (best, cache)
  | y :: ys =>
      let r := path_len_cached cache y
      if bestLen < r.1 then maxFoldC y r.1 r.2 ys
      else maxFoldC best bestLen r.2 ys

/-- `pyMax` with the key function reading through the memo table. -/
def pyMaxC (cache : LenCache) : List FsPath → Option FsPath × LenCache
  | [] => (none, cache)
  | x :: xs =>
      let r := path_len_cached cache x
      let m := maxFoldC x r.1 r.2 xs
      (some m.1, m.2)

/-- The `get_run_dirs` loop with the memo table threaded through. -/
def get_run_dirs_loopC (root_dirs : List FsPath) :
    List FsPath → List FsPath → LenCache → List FsPath × LenCache
  | [], acc, cache => (acc, cache)
  | path :: rest, acc, cache =>
      if is_rust_file path then
        let r := pyMaxC cache (root_dirs.filter (fun d => is_relative_to path d))
        match r.1 with
        | some root => get_run_dirs_loopC root_dirs rest (setInsert acc root) r.2
        | none => get_run_dirs_loopC root_dirs rest acc r.2
      else get_run_dirs_loopC root_dirs rest acc cache

/-- The resolver run against a given (possibly pre-populated) memo table,
returning the run-directory set and the table left behind. -/
def get_run_dirs_cached (cache : LenCache) (root_dirs changed_files : List FsPath) :
    List FsPath × LenCache :=
  get_run_dirs_loopC root_dirs changed_files [] cache

/-- A memo table is valid when every stored entry is the true length of
its key, as any table produced by `path_len_cached` is. -/
def ValidCache (c : LenCache) : Prop := ∀ q ∈ c, q.2 = q.1.length

/-! Helper lemmas. -/

theorem isPrefixOf_eq {l₁ l₂ : List String} :
    l₁.isPrefixOf l₂ = true ↔ l₁ <+: l₂ := List.isPrefixOf_iff_prefix

theorem maxFold_mem (l : List FsPath) : ∀ b n, maxFold b n l ∈ b :: l := by
  induction l with
  | nil => intro b n; simp [maxFold]
  | cons y ys ih =>
      intro b n
      simp only [maxFold]
      split
      · have h := ih y (path_len y)
        simp only [List.mem_cons] at h ⊢
        tauto
      · have h := ih b n
        simp only [List.mem_cons] at h ⊢
        tauto

theorem maxFold_ge (l : List FsPath) :
    ∀ b, path_len b ≤ path_len (maxFold b (path_len b) l) ∧
      ∀ y ∈ l, path_len y ≤ path_len (maxFold b (path_len b) l) := by
  induction l with
  | nil => intro b; simp [maxFold]
  | cons y ys ih =>
      intro b
      simp only [maxFold]
      split
      · rename_i h
        obtain ⟨h1, h2⟩ := ih y
        refine ⟨le_trans (le_of_lt h) h1, ?_⟩
        intro z hz
        rcases List.mem_cons.1 hz with hz | hz
        · rw [hz]; exact h1
        · exact h2 z hz
      · rename_i h
        obtain ⟨h1, h2⟩ := ih b
        refine ⟨h1, ?_⟩
        intro z hz
        rcases List.mem_cons.1 hz with hz | hz
        · rw [hz]; exact le_trans (Nat.le_of_not_lt h) h1
        · exact h2 z hz

theorem pyMax_mem {l : List FsPath} {x : FsPath} (h : pyMax l = some x) :
    x ∈ l := by
  cases l with
  | nil => simp [pyMax] at h
  | cons a as =>
      simp only [pyMax, Option.some.injEq] at h
      rw [← h]
      exact maxFold_mem as a (path_len a)

theorem pyMax_ge {l : List FsPath} {x : FsPath} (h : pyMax l = some x) :
    ∀ y ∈ l, path_len y ≤ path_len x := by
  cases l with
  | nil => simp [pyMax] at h
  | cons a as =>
      simp only [pyMax, Option.some.injEq] at h
      intro y hy
      rw [← h]
      obtain ⟨h1, h2⟩ := maxFold_ge as a
      rcases List.mem_cons.1 hy with hy | hy
      · rw [hy]; exact h1
      · exact h2 y hy

theorem pyMax_eq_none {l : List FsPath} : pyMax l = none ↔ l = [] := by
  cases l <;> simp [pyMax]

theorem selectRoot_mem {roots : List FsPath} {f x : FsPath}
    (h : selectRoot roots f = some x) :
    x ∈ roots ∧ is_relative_to f x = true := by
  have hm := pyMax_mem h
  exact ⟨(List.mem_filter.1 hm).1, (List.mem_filter.1 hm).2⟩

theorem selectRoot_ge {roots : List FsPath} {f x : FsPath}
    (h : selectRoot roots f = some x) :
    ∀ r ∈ roots, is_relative_to f r = true → path_len r ≤ path_len x := by
  intro r hr hrel
  exact pyMax_ge h r (List.mem_filter.2 ⟨hr, hrel⟩)

theorem setInsert_mem {s : List FsPath} {x d : FsPath}
    (h : d ∈ setInsert s x) : d ∈ s ∨ d = x := by
  by_cases hc : s.contains x = true
  · rw [setInsert, if_pos hc] at h
    exact Or.inl h
  · rw [setInsert, if_neg hc] at h
    rcases List.mem_append.1 h with h | h
    · exact Or.inl h
    · right; simpa using h

theorem sum_pos_of_nonneg (l : List Int) (h : ∀ x ∈ l, 0 ≤ x) :
    0 < l.sum ↔ ∃ x ∈ l, x ≠ 0 := by
  induction l with
  | nil => simp
  | cons a as ih =>
      have ha : 0 ≤ a := h a (List.mem_cons_self a as)
      have has : ∀ x ∈ as, 0 ≤ x := fun x hx => h x (List.mem_cons_of_mem a hx)
      have hS : 0 ≤ as.sum := List.sum_nonneg has
      simp only [List.sum_cons]
      constructor
      · intro hpos
        by_cases hA : a = 0
        · rw [hA, zero_add] at hpos
          obtain ⟨x, hx, hxne⟩ := (ih has).1 hpos
          exact ⟨x, List.mem_cons_of_mem a hx, hxne⟩
        · exact ⟨a, List.mem_cons_self a as, hA⟩
      · rintro ⟨x, hx, hxne⟩
        rcases List.mem_cons.1 hx with rfl | hx
        · have hxpos : 0 < x := lt_of_le_of_ne ha (Ne.symm hxne)
          omega
        · have hpos : 0 < as.sum := (ih has).2 ⟨x, hx, hxne⟩
          omega

theorem run_dirs_loop_filter (roots : List FsPath) :
    ∀ (files acc : List FsPath),
      get_run_dirs_loop roots files acc =
        get_run_dirs_loop roots (files.filter is_rust_file) acc := by
  intro files
  induction files with
  | nil => intro acc; rfl
  | cons p rest ih =>
      intro acc
      by_cases hp : is_rust_file p = true
      · rw [List.filter_cons_of_pos hp]
        simp only [get_run_dirs_loop, hp, if_true]
        cases hsel : selectRoot roots p with
        | some root => simp only [hsel]; exact ih _
        | none => simp only [hsel]; exact ih _
      · have hp2 : is_rust_file p = false := by
          simpa using hp
        rw [List.filter_cons_of_neg (by simp [hp2])]
        simp only [get_run_dirs_loop, hp2, Bool.false_eq_true, if_false]
        exact ih acc

theorem run_dirs_loop_skip (roots : List FsPath) (f : FsPath)
    (h : ∀ r ∈ roots, is_relative_to f r = false) :
    ∀ (rest acc : List FsPath),
      get_run_dirs_loop roots (f :: rest) acc =
        get_run_dirs_loop roots rest acc := by
  intro rest acc
  have hfil : roots.filter (fun d => is_relative_to f d) = [] :=
    List.filter_eq_nil_iff.2 (by intro a ha; simp [h a ha])
  have hsel : selectRoot roots f = none := by
    rw [selectRoot, hfil]; rfl
  by_cases hru : is_rust_file f = true
  · simp only [get_run_dirs_loop, hru, if_true, hsel]
  · have hru2 : is_rust_file f = false := by simpa using hru
    simp only [get_run_dirs_loop, hru2, Bool.false_eq_true, if_false]

theorem run_dirs_all_unmatched (roots : List FsPath) :
    ∀ files : List FsPath,
      (∀ g ∈ files, ∀ r ∈ roots, is_relative_to g r = false) →
        get_run_dirs_from roots files = [] := by
  intro files
  induction files with
  | nil => intro _; rfl
  | cons g gs ih =>
      intro hall
      have hg := hall g (List.mem_cons_self g gs)
      have hgs := fun x hx => hall x (List.mem_cons_of_mem g hx)
      have h1 := run_dirs_loop_skip roots g hg gs []
      exact h1.trans (ih hgs)

theorem run_dirs_loop_subset (roots : List FsPath) :
    ∀ (files acc : List FsPath) (d : FsPath),
      d ∈ get_run_dirs_loop roots files acc → d ∈ acc ∨ d ∈ roots := by
  intro files
  induction files with
  | nil => intro acc d hd; exact Or.inl hd
  | cons p rest ih =>
      intro acc d hd
      by_cases hru : is_rust_file p = true
      · simp only [get_run_dirs_loop, hru, if_true] at hd
        cases hsel : selectRoot roots p with
        | some root =>
            simp only [hsel] at hd
            rcases ih (setInsert acc root) d hd with hin | hin
            · rcases setInsert_mem hin with hin2 | hin2
              · exact Or.inl hin2
              · rw [hin2]; exact Or.inr (selectRoot_mem hsel).1
            · exact Or.inr hin
        | none =>
            simp only [hsel] at hd
            exact ih acc d hd
      · have hru2 : is_rust_file p = false := by simpa using hru
        simp only [get_run_dirs_loop, hru2, Bool.false_eq_true, if_false] at hd
        exact ih acc d hd

theorem lookup_valid (p : FsPath) (n : Nat) :
    ∀ c : LenCache, ValidCache c → c.lookup p = some n → n = p.length := by
  intro c
  induction c with
  | nil => intro _ hl; simp [List.lookup] at hl
  | cons q t ih =>
      intro h hl
      obtain ⟨k, b⟩ := q
      rw [List.lookup_cons] at hl
      cases hbeq : (p == k) with
      | true =>
          simp only [hbeq, Option.some.injEq] at hl
          have hk : p = k := eq_of_beq hbeq
          have hv : b = k.length := h (k, b) (List.mem_cons_self _ _)
          rw [← hl, hv, hk]
      | false =>
          simp only [hbeq] at hl
          exact ih (fun q hq => h q (List.mem_cons_of_mem _ hq)) hl

theorem path_len_cached_spec (c : LenCache) (p : FsPath) (h : ValidCache c) :
    (path_len_cached c p).1 = path_len p ∧
      ValidCache (path_len_cached c p).2 := by
  cases hl : c.lookup p with
  | some n =>
      simp only [path_len_cached, hl]
      exact ⟨lookup_valid p n c h hl, h⟩
  | none =>
      simp only [path_len_cached, hl]
      refine ⟨rfl, ?_⟩
      intro q hq
      rcases List.mem_cons.1 hq with hq | hq
      · rw [hq]
      · exact h q hq

theorem maxFoldC_spec :
    ∀ (l : List FsPath) (b : FsPath) (n : Nat) (c : LenCache), ValidCache c →
      (maxFoldC b n c l).1 = maxFold b n l ∧
        ValidCache (maxFoldC b n c l).2 := by
  intro l
  induction l with
  | nil => intro b n c h; exact ⟨rfl, h⟩
  | cons y ys ih =>
      intro b n c h
      obtain ⟨h1, h2⟩ := path_len_cached_spec c y h
      simp only [maxFoldC, maxFold]
      rw [h1]
      by_cases hlt : n < path_len y
      · rw [if_pos hlt, if_pos hlt]
        exact ih y (path_len y) _ h2
      · rw [if_neg hlt, if_neg hlt]
        exact ih b n _ h2

theorem pyMaxC_spec (c : LenCache) (l : List FsPath) (h : ValidCache c) :
    (pyMaxC c l).1 = pyMax l ∧ ValidCache (pyMaxC c l).2 := by
  cases l with
  | nil => exact ⟨rfl, h⟩
  | cons x xs =>
      obtain ⟨h1, h2⟩ := path_len_cached_spec c x h
      obtain ⟨h3, h4⟩ :=
        maxFoldC_spec xs x (path_len_cached c x).1 (path_len_cached c x).2 h2
      simp only [pyMaxC, pyMax]
      constructor
      · rw [h3, h1]
      · exact h4

theorem run_dirs_loopC_spec (roots : List FsPath) :
    ∀ (files acc : List FsPath) (c : LenCache), ValidCache c →
      (get_run_dirs_loopC roots files acc c).1 =
        get_run_dirs_loop roots files acc ∧
      ValidCache (get_run_dirs_loopC roots files acc c).2 := by
  intro files
  induction files with
  | nil => intro acc c h; exact ⟨rfl, h⟩
  | cons p rest ih =>
      intro acc c h
      obtain ⟨h1, h2⟩ :=
        pyMaxC_spec c (roots.filter (fun d => is_relative_to p d)) h
      by_cases hru : is_rust_file p = true
      · simp only [get_run_dirs_loopC, get_run_dirs_loop, hru, if_true,
          selectRoot]
        rw [← h1]
        cases hm : (pyMaxC c (roots.filter (fun d => is_relative_to p d))).1 with
        | some root =>
            simp only [hm]
            exact ih (setInsert acc root) _ h2
        | none =>
            simp only [hm]
            exact ih acc _ h2
      · have hru2 : is_rust_file p = false := by simpa using hru
        simp only [get_run_dirs_loopC, get_run_dirs_loop, hru2,
          Bool.false_eq_true, if_false]
        exact ih acc c h

/-! The claims. -/

/-- Claim C1 (corrected): for non-negative per-directory exit codes —
the only observable subprocess outcomes aside from signal deaths — the
overall exit status is 1 exactly when some directory's command exited
non-zero, and 0 exactly when every invoked command exited 0. -/
theorem exit_status_iff_some_failure (e : FsPath → Int) (dirs : List FsPath)
    (h : ∀ d ∈ dirs, 0 ≤ e d) :
    ((pymain_run e dirs).1 = 1 ↔ ∃ d ∈ dirs, e d ≠ 0) ∧
    ((pymain_run e dirs).1 = 0 ↔ ∀ d ∈ dirs, e d = 0) := by
  by_cases hd : dirs = []
  · rw [hd]; simp [pymain_run]
  · have hnn : ∀ x ∈ dirs.map e, 0 ≤ x := by
      intro x hx
      obtain ⟨d, hdm, hde⟩ := List.mem_map.1 hx
      rw [← hde]
      exact h d hdm
    have hiff := sum_pos_of_nonneg (dirs.map e) hnn
    simp only [pymain_run, if_neg hd, aggregate_exit]
    by_cases hpos : 0 < (dirs.map e).sum
    · have hex : ∃ d ∈ dirs, e d ≠ 0 := by
        obtain ⟨x, hx, hxne⟩ := hiff.1 hpos
        obtain ⟨d, hdm, hde⟩ := List.mem_map.1 hx
        exact ⟨d, hdm, hde.symm ▸ hxne⟩
      rw [if_pos hpos]
      refine ⟨⟨fun _ => hex, fun _ => rfl⟩,
        ⟨fun h10 => absurd h10 (by decide), fun hall => ?_⟩⟩
      obtain ⟨d, hdm, hdne⟩ := hex
      exact absurd (hall d hdm) hdne
    · have hall : ∀ d ∈ dirs, e d = 0 := by
        intro d hdm
        by_contra hne
        exact hpos (hiff.2 ⟨e d, List.mem_map_of_mem e hdm, hne⟩)
      rw [if_neg hpos]
      refine ⟨⟨fun h01 => absurd h01 (by decide), fun hex => ?_⟩,
        ⟨fun _ => hall, fun _ => rfl⟩⟩
      obtain ⟨d, hdm, hdne⟩ := hex
      exact absurd (hall d hdm) hdne

/-- Witness for the corrected C1 at a concrete input. -/
theorem exit_status_iff_some_failure_witness :
    ((pymain_run (fun _ => (2 : Int)) [["a"]]).1 = 1 ↔
      ∃ d ∈ ([["a"]] : List FsPath), (fun _ : FsPath => (2 : Int)) d ≠ 0) ∧
    ((pymain_run (fun _ => (2 : Int)) [["a"]]).1 = 0 ↔
      ∀ d ∈ ([["a"]] : List FsPath), (fun _ : FsPath => (2 : Int)) d = 0) :=
  exit_status_iff_some_failure (fun _ => 2) [["a"]] (by decide)

/-- Counterexample to C1 as stated: with per-directory exit codes 1 and
-1 (a command killed by a signal reports a negative code), the sum is 0,
so the overall exit status is 0 although a command exited non-zero. -/
theorem exit_status_negative_code_cex :
    (pymain_run (fun d => if d = ["a"] then 1 else -1) [["a"], ["b"]]).1 = 0 ∧
    ∃ d ∈ ([["a"], ["b"]] : List FsPath),
      (fun d : FsPath => if d = ["a"] then (1 : Int) else -1) d ≠ 0 := by
  decide

/-- Claim C2: for a file `f` under nested roots `r1` and `r2 = r1 ++ s`,
the resolver on roots `{r1, r2}` returns exactly `{r2}`; and in any root
set containing both, the selected root for `f` (the ancestor of maximal
part count) is never `r1`. -/
theorem deepest_nested_root_wins (r1 s f : FsPath) (hs : s ≠ [])
    (hrust : is_rust_file f = true)
    (hunder : is_relative_to f (r1 ++ s) = true) :
    get_run_dirs_from [r1, r1 ++ s] [f] = [r1 ++ s] ∧
    (∀ (R : List FsPath) (x : FsPath), r1 ∈ R → (r1 ++ s) ∈ R →
      selectRoot R f = some x → x ≠ r1) ∧
    (∀ (R : List FsPath) (x : FsPath), selectRoot R f = some x →
      x ∈ R ∧ is_relative_to f x = true ∧
        ∀ r ∈ R, is_relative_to f r = true → path_len r ≤ path_len x) := by
  have hpre2 : (r1 ++ s) <+: f := isPrefixOf_eq.1 hunder
  have hpre1 : r1 <+: f := by
    obtain ⟨t, ht⟩ := hpre2
    exact ⟨s ++ t, by rw [← List.append_assoc, ht]⟩
  have h1 : is_relative_to f r1 = true := isPrefixOf_eq.2 hpre1
  have hlen : path_len r1 < path_len (r1 ++ s) := by
    have hsl : 0 < s.length := List.length_pos.2 hs
    simp only [path_len, List.length_append]
    omega
  refine ⟨?_, ?_, ?_⟩
  · have hfil : ([r1, r1 ++ s].filter (fun d => is_relative_to f d)) =
        [r1, r1 ++ s] := by
      simp [h1, hunder]
    have hsel : selectRoot [r1, r1 ++ s] f = some (r1 ++ s) := by
      rw [selectRoot, hfil]
      simp [pyMax, maxFold, hlen]
    simp [get_run_dirs_from, get_run_dirs_loop, hrust, hsel, setInsert]
  · intro R x hR1 hR2 hsel hxr1
    have hge := selectRoot_ge hsel (r1 ++ s) hR2 hunder
    rw [hxr1] at hge
    exact absurd hge (Nat.not_le.2 hlen)
  · intro R x hsel
    exact ⟨(selectRoot_mem hsel).1, (selectRoot_mem hsel).2,
      selectRoot_ge hsel⟩

/-- Witness for C2 at the concrete nested roots of the spec scenario. -/
theorem deepest_nested_root_wins_witness :
    get_run_dirs_from [["/", "proj"], ["/", "proj"] ++ ["sub"]]
      [["/", "proj", "sub", "lib.rs"]] = [["/", "proj"] ++ ["sub"]] :=
  (deepest_nested_root_wins ["/", "proj"] ["sub"] ["/", "proj", "sub", "lib.rs"]
    (by decide) (by decide) (by decide)).1

/-- Claim C3: the command is invoked in every run directory (the invoked
list is the whole run-directory list, whatever the exit codes), and with
exit codes 0 then 1 in two directories the aggregate exit status is 1. -/
theorem no_abort_on_failure (e : FsPath → Int) (d1 d2 : FsPath)
    (h1 : e d1 = 0) (h2 : e d2 = 1) :
    (∀ dirs : List FsPath, (pymain_run e dirs).2 = dirs) ∧
    (pymain_run e [d1, d2]).2 = [d1, d2] ∧
    (pymain_run e [d1, d2]).1 = 1 := by
  have hall : ∀ dirs : List FsPath, (pymain_run e dirs).2 = dirs := by
    intro dirs
    by_cases hd : dirs = []
    · rw [hd]; rfl
    · simp [pymain_run, hd]
  refine ⟨hall, hall _, ?_⟩
  simp [pymain_run, aggregate_exit, h1, h2]

/-- Witness for C3 at concrete directories and exit codes. -/
theorem no_abort_on_failure_witness :
    (pymain_run (fun d => if d = ["b"] then 1 else 0) [["a"], ["b"]]).1 = 1 :=
  (no_abort_on_failure (fun d => if d = ["b"] then 1 else 0) ["a"] ["b"]
    (by decide) (by decide)).2.2

/-- Claim C4: only files recognized by `is_rust_file` contribute to the
run-directory set (filtering the input to recognized files first changes
nothing), and the spec scenario with roots `/proj`, `/proj/sub` and
changed files `/proj/sub/lib.rs`, `/proj/README.md` yields exactly
`{/proj/sub}`. -/
theorem only_rust_files_contribute :
    (∀ roots files : List FsPath,
      get_run_dirs_from roots files =
        get_run_dirs_from roots (files.filter is_rust_file)) ∧
    get_run_dirs_from [["/", "proj"], ["/", "proj", "sub"]]
        [["/", "proj", "sub", "lib.rs"], ["/", "proj", "README.md"]] =
      [["/", "proj", "sub"]] := by
  constructor
  · intro roots files
    exact run_dirs_loop_filter roots files []
  · decide

/-- Claim C5: a changed file under no root contributes nothing to the
result (dropping it changes nothing), and if every changed file is under
no root the resolver returns the empty set. -/
theorem unmatched_file_skipped (roots : List FsPath) (f : FsPath)
    (rest : List FsPath)
    (h : ∀ r ∈ roots, is_relative_to f r = false) :
    get_run_dirs_from roots (f :: rest) = get_run_dirs_from roots rest ∧
    ∀ files : List FsPath,
      (∀ g ∈ files, ∀ r ∈ roots, is_relative_to g r = false) →
        get_run_dirs_from roots files = [] := by
  exact ⟨run_dirs_loop_skip roots f h rest [], run_dirs_all_unmatched roots⟩

/-- Witness for C5: a Rust file outside the only root is skipped. -/
theorem unmatched_file_skipped_witness :
    get_run_dirs_from [["/", "proj"]] [["/", "other", "lib.rs"]] =
      get_run_dirs_from [["/", "proj"]] [] :=
  (unmatched_file_skipped [["/", "proj"]] ["/", "other", "lib.rs"] []
    (by decide)).1

/-- Claim C6: with no changed files the resolver returns the empty set,
and with an empty run-directory set the dispatcher performs zero
invocations and exits 0. -/
theorem empty_input_no_work :
    ∀ (roots : List FsPath) (e : FsPath → Int),
      get_run_dirs_from roots [] = [] ∧ pymain_run e [] = (0, []) := by
  intro roots e
  exact ⟨rfl, rfl⟩

/-- Claim C7: `check` with `--features foo,bar` and `--all-features`
unset builds `cargo check --features=foo,bar`, which carries the feature
flag and no all-features flag; each modifier is appended only when
supplied. -/
theorem check_features_flag :
    run_check_cmd (some "foo,bar") false = "cargo check --features=foo,bar" ∧
    ("--features=foo,bar").data <:+: (run_check_cmd (some "foo,bar") false).data ∧
    ¬ ("--all-features").data <:+: (run_check_cmd (some "foo,bar") false).data ∧
    run_check_cmd none false = "cargo check" ∧
    run_check_cmd none true = "cargo check --all-features" ∧
    run_check_cmd (some "foo,bar") true =
      "cargo check --features=foo,bar --all-features" := by
  decide

/-- Claim C8: the resolver is deterministic and idempotent even with the
`path_len` memo table made explicit: starting from the empty table it
computes `get_run_dirs_from`, and re-running it on the table left by the
first run returns the identical result set. -/
theorem resolver_idempotent (roots files : List FsPath) :
    (get_run_dirs_cached [] roots files).1 = get_run_dirs_from roots files ∧
    (get_run_dirs_cached (get_run_dirs_cached [] roots files).2 roots files).1 =
      (get_run_dirs_cached [] roots files).1 := by
  have h0 : ValidCache [] := by
    intro q hq
    exact absurd hq (List.not_mem_nil q)
  obtain ⟨h1, h2⟩ := run_dirs_loopC_spec roots files [] [] h0
  obtain ⟨h3, _⟩ := run_dirs_loopC_spec roots files []
    (get_run_dirs_loopC roots files [] []).2 h2
  exact ⟨h1, h3.trans h1.symm⟩

/-- Claim C9: the empty-string modifiers are asymmetric: `fmt` with
`--config ""` builds the same command as with no config (no config flag),
while `check` with `--features ""` still appends an empty features flag. -/
theorem empty_modifier_asymmetry :
    run_fmt_cmd (some "") = "cargo fmt --" ∧
    run_fmt_cmd (some "") = run_fmt_cmd none ∧
    ¬ (" --config").data <:+: (run_fmt_cmd (some "")).data ∧
    run_check_cmd (some "") false = "cargo check --features=" ∧
    ("--features=").data <:+: (run_check_cmd (some "") false).data := by
  decide

/-- Claim C10: every directory the resolver returns is the parent of a
working-tree file named `Cargo.toml`; a directory holding only a
`Cargo.lock` is never selected, because root discovery matches only the
metadata manifest filename. -/
theorem run_dir_has_manifest (tree files : List FsPath) (d : FsPath)
    (hd : d ∈ get_run_dirs tree files) :
    ∃ p ∈ tree, pathName p = "Cargo.toml" ∧ d = parent p := by
  have h := run_dirs_loop_subset (find_cargo_root_dirs tree) files [] d hd
  rcases h with h | h
  · exact absurd h (List.not_mem_nil d)
  · obtain ⟨p, hp, hpd⟩ := List.mem_map.1 h
    have hpf := List.mem_filter.1 hp
    exact ⟨p, hpf.1, of_decide_eq_true hpf.2, hpd.symm⟩

/-- Witness for C10 at a one-crate tree. -/
theorem run_dir_has_manifest_witness :
    ∃ p ∈ ([["proj", "Cargo.toml"]] : List FsPath),
      pathName p = "Cargo.toml" ∧ ["proj"] = parent p :=
  run_dir_has_manifest [["proj", "Cargo.toml"]] [["proj", "lib.rs"]] ["proj"]
    (by decide)
